import Mathlib

/-!
Verification of the heat-method geodesic pipeline
(`apps/sample/trimesh_heatmethod/trimesh_heatmethod.h`).

The numerical core is embedded shallowly over the real numbers:
`double` arithmetic is modelled by exact arithmetic on `ℝ`, Eigen's
`.norm()` by `Real.sqrt` of the sum of squares, and Eigen dense/sparse
objects by functions out of `Fin n`.  The mesh collaborator (vcglib's
`TriMesh`, which lives outside the sample file) is modelled from the
spec as positions, face-corner incidence and the derived adjacency
queries; the sparse Cholesky solver (Eigen, an external collaborator)
is modelled as an abstract solver record.
-/

noncomputable section

open Classical Finset

/-- 3D vector with real components, modelling `Eigen::Vector3d`
(and `vcg::Point3f` after `toEigen`). -/
structure Vec3 where
  x : ℝ
  y : ℝ
  z : ℝ
deriving DecidableEq

namespace Vec3

/-- Componentwise addition, `a + b` on `Eigen::Vector3d`. -/
def add (a b : Vec3) : Vec3 := ⟨a.x + b.x, a.y + b.y, a.z + b.z⟩

/-- Componentwise subtraction, `a - b` on `Eigen::Vector3d`. -/
def sub (a b : Vec3) : Vec3 := ⟨a.x - b.x, a.y - b.y, a.z - b.z⟩

/-- Componentwise negation, unary `-` on `Eigen::Vector3d`. -/
def neg (a : Vec3) : Vec3 := ⟨-a.x, -a.y, -a.z⟩

/-- Scalar multiple `t * v`. -/
def smul (t : ℝ) (a : Vec3) : Vec3 := ⟨t * a.x, t * a.y, t * a.z⟩

/-- Division of a vector by a scalar, `v / s` on `Eigen::Vector3d`. -/
def div (a : Vec3) (s : ℝ) : Vec3 := ⟨a.x / s, a.y / s, a.z / s⟩

/-- `v0.dot(v1)`. -/
def dot (a b : Vec3) : ℝ := a.x * b.x + a.y * b.y + a.z * b.z

/-- `v0.cross(v1)`. -/
def cross (a b : Vec3) : Vec3 :=
  ⟨a.y * b.z - a.z * b.y, a.z * b.x - a.x * b.z, a.x * b.y - a.y * b.x⟩

/-- The zero vector. -/
def zero : Vec3 := ⟨0, 0, 0⟩

end Vec3

/-- `v.norm()`: the Euclidean norm, square root of the sum of squares. -/
def norm3 (a : Vec3) : ℝ := Real.sqrt (a.x ^ 2 + a.y ^ 2 + a.z ^ 2)

/-- `cotan(v0, v1)` from the source: `v0.dot(v1) / v0.cross(v1).norm()`,
an unguarded quotient (no check of the denominator). -/
def cotan (v0 v1 : Vec3) : ℝ := Vec3.dot v0 v1 / norm3 (Vec3.cross v0 v1)

/-- The triangle mesh as the core requires it (spec §3, §6): vertex
positions, face-corner incidence in winding order, a per-face normal
field `N` and a per-face scalar quality field `Q`.  `nV`/`nF` are
`mesh.VN()`/`mesh.FN()`. -/
structure Mesh (nV nF : ℕ) where
  pos : Fin nV → Vec3
  face : Fin nF → Fin 3 → Fin nV
  N : Fin nF → Vec3
  Q : Fin nF → ℝ

/-- Heron-formula area of face `f`, exactly as the first loop of
`buildMassMatrix` computes it from the three edge lengths. -/
def faceArea {nV nF : ℕ} (M : Mesh nV nF) (f : Fin nF) : ℝ :=
  let p0 := M.pos (M.face f 0)
  let p1 := M.pos (M.face f 1)
  let p2 := M.pos (M.face f 2)
  let e0 := norm3 (Vec3.sub p1 p0)
  let e1 := norm3 (Vec3.sub p2 p0)
  let e2 := norm3 (Vec3.sub p2 p1)
  let s := (e0 + e1 + e2) / 2
  Real.sqrt (s * (s - e0) * (s - e1) * (s - e2))

/-- Modelled from the spec: `vcg::face::VFStarVF` (vcglib, outside the
sample file) enumerates the faces incident to a vertex — "one-ring face
enumeration around a vertex" (spec §6, §9).  Here: the set of faces
having `i` among their corners. -/
def starFaces {nV nF : ℕ} (M : Mesh nV nF) (i : Fin nV) : Finset (Fin nF) :=
  univ.filter (fun f => ∃ k : Fin 3, M.face f k = i)

/-- Modelled from the spec: `VFStarVF`'s parallel `faces`/`indices`
output, "(incident face, local corner index) pairs around a vertex"
(spec §9).  Here: the set of (face, corner) pairs at vertex `i`. -/
def starCorners {nV nF : ℕ} (M : Mesh nV nF) (i : Fin nV) :
    Finset (Fin nF × Fin 3) :=
  univ.filter (fun p => M.face p.1 p.2 = i)

/-- Diagonal of the mass matrix built by `buildMassMatrix`: one third of
the summed Heron areas of the faces incident to the vertex. -/
def massDiag {nV nF : ℕ} (M : Mesh nV nF) (i : Fin nV) : ℝ :=
  (∑ f ∈ starFaces M i, faceArea M f) / 3

/-- `buildMassMatrix(mesh, mass)`: writes each face's Heron area into the
face quality field `Q` (the source's cache for the gradient stage) and
fills the diagonal mass matrix.  Returned as (updated mesh, diagonal). -/
def buildMassMatrix {nV nF : ℕ} (M : Mesh nV nF) :
    Mesh nV nF × (Fin nV → ℝ) :=
  (⟨M.pos, M.face, M.N, fun f => faceArea M f⟩, fun i => massDiag M i)

/-- Cotangent of the interior angle at corner `k` of face `f`: `cotan`
of the two edge vectors from that corner to the other two corners
(the source's `cotan(elf, eln)` / `cotan(ern, erf)` with the third
vertex of the face at the apex; `cotan` is symmetric in its args). -/
def cotAtCorner {nV nF : ℕ} (M : Mesh nV nF) (f : Fin nF) (k : Fin 3) : ℝ :=
  cotan (Vec3.sub (M.pos (M.face f (k + 1))) (M.pos (M.face f k)))
        (Vec3.sub (M.pos (M.face f (k + 2))) (M.pos (M.face f k)))

/-- Corner `(f, k)` lies opposite the edge `{i, j}`: the other two
corners of `f` are `i` and `j` (in either order). -/
def oppositeCorner {nV nF : ℕ} (M : Mesh nV nF) (i j : Fin nV)
    (f : Fin nF) (k : Fin 3) : Prop :=
  (M.face f (k + 1) = i ∧ M.face f (k + 2) = j) ∨
  (M.face f (k + 1) = j ∧ M.face f (k + 2) = i)

instance {nV nF : ℕ} (M : Mesh nV nF) (i j : Fin nV) (f : Fin nF) (k : Fin 3) :
    Decidable (oppositeCorner M i j f k) := by
  unfold oppositeCorner; infer_instance

/-- Modelled from the spec: the one-ring walk of `buildCotanMatrix`
(vcglib's rotating `vcg::face::Pos` cursor, outside the sample file)
visits, for each incident edge `(v, vo)`, "the two triangles sharing
that edge" (spec §4.2) and reads the cotangent at the corner opposite
the edge in each.  Here: the set of face corners opposite edge `{i,j}`. -/
def oppCorners {nV nF : ℕ} (M : Mesh nV nF) (i j : Fin nV) :
    Finset (Fin nF × Fin 3) :=
  univ.filter (fun p => oppositeCorner M i j p.1 p.2)

/-- Off-diagonal content written by the one-ring loop of
`buildCotanMatrix`: `(cotan_l + cotan_r) / 2` for each incident edge,
i.e. the sum of the opposite-corner cotangents divided by two; the
diagonal is never touched by this loop (sparse default 0). -/
def cotanOff {nV nF : ℕ} (M : Mesh nV nF) (i j : Fin nV) : ℝ :=
  if i = j then 0
  else (∑ p ∈ oppCorners M i j, cotAtCorner M p.1 p.2) / 2

/-- The matrix produced by `buildCotanMatrix`: the one-ring loop fills
the off-diagonal entries, then the final loop sets
`coeffRef(i,i) = -row(i).sum()` over the entries written so far. -/
def cotanOperator {nV nF : ℕ} (M : Mesh nV nF) (i j : Fin nV) : ℝ :=
  if i = j then -(∑ k, cotanOff M i k) else cotanOff M i j

/-- `computeAverageEdgeLength`: per face, half the perimeter is
accumulated; the total is divided by `3/2 * FN`. -/
def computeAverageEdgeLength {nV nF : ℕ} (M : Mesh nV nF) : ℝ :=
  (∑ f, (norm3 (Vec3.sub (M.pos (M.face f 1)) (M.pos (M.face f 0))) +
         norm3 (Vec3.sub (M.pos (M.face f 2)) (M.pos (M.face f 0))) +
         norm3 (Vec3.sub (M.pos (M.face f 2)) (M.pos (M.face f 1)))) / 2) /
    (3 / 2 * (nF : ℝ))

/-- Numerator of `computeVertexGradient` on face `f`: the unit rotated
edge vectors `g_k = n × e_k` (note the source normalizes each edge
vector by its own length) weighted by the heat value at the opposite
vertex.  Reads positions, incidence and the normal field only. -/
def gradientNumerator {nV nF : ℕ} (M : Mesh nV nF) (heat : Fin nV → ℝ)
    (f : Fin nF) : Vec3 :=
  let p0 := M.pos (M.face f 0)
  let p1 := M.pos (M.face f 1)
  let p2 := M.pos (M.face f 2)
  let n := Vec3.div (M.N f) (norm3 (M.N f))
  let e0 := Vec3.div (Vec3.sub p2 p1) (norm3 (Vec3.sub p2 p1))
  let e1 := Vec3.div (Vec3.sub p0 p2) (norm3 (Vec3.sub p0 p2))
  let e2 := Vec3.div (Vec3.sub p1 p0) (norm3 (Vec3.sub p1 p0))
  Vec3.add (Vec3.add (Vec3.smul (heat (M.face f 0)) (Vec3.cross n e0))
                     (Vec3.smul (heat (M.face f 1)) (Vec3.cross n e1)))
           (Vec3.smul (heat (M.face f 2)) (Vec3.cross n e2))

/-- `computeVertexGradient(mesh, heat)`: per face, the weighted sum of
rotated unit edge vectors divided by `2 * fp->Q()` (the face quality
field, holding the area cached by `buildMassMatrix`). -/
def computeVertexGradient {nV nF : ℕ} (M : Mesh nV nF) (heat : Fin nV → ℝ)
    (f : Fin nF) : Vec3 :=
  Vec3.div (gradientNumerator M heat f) (2 * M.Q f)

/-- `normalizeVectorField(field)`: each row divided by its own norm. -/
def normalizeVectorField {n : ℕ} (field : Fin n → Vec3) (i : Fin n) : Vec3 :=
  Vec3.div (field i) (norm3 (field i))

/-- Contribution of the incident corner `(f, k)` to the divergence at a
vertex: the source's `(cotl * er.dot(x) + cotr * el.dot(x)) / 2` with
the three corner-index cases for `el`, `er`, `eo` spelled out and the
left edge unit vector negated (`el /= -el.norm()`). -/
def divergenceTerm {nV nF : ℕ} (M : Mesh nV nF) (field : Fin nF → Vec3)
    (f : Fin nF) (k : Fin 3) : ℝ :=
  let p0 := M.pos (M.face f 0)
  let p1 := M.pos (M.face f 1)
  let p2 := M.pos (M.face f 2)
  let el := match k with
    | 0 => Vec3.sub p2 p0
    | 1 => Vec3.sub p0 p1
    | 2 => Vec3.sub p1 p2
  let er := match k with
    | 0 => Vec3.sub p1 p0
    | 1 => Vec3.sub p2 p1
    | 2 => Vec3.sub p0 p2
  let eo := match k with
    | 0 => Vec3.sub p1 p2
    | 1 => Vec3.sub p0 p2
    | 2 => Vec3.sub p0 p1
  let cotl := cotan el eo
  let cotr := cotan er eo
  let eln := Vec3.div el (-norm3 el)
  let ern := Vec3.div er (norm3 er)
  (cotl * Vec3.dot ern (field f) + cotr * Vec3.dot eln (field f)) / 2

/-- `computeVertexDivergence(mesh, field)`: for each vertex, the sum of
the per-corner contributions over its one-ring (via `VFStarVF`). -/
def computeVertexDivergence {nV nF : ℕ} (M : Mesh nV nF)
    (field : Fin nF → Vec3) (i : Fin nV) : ℝ :=
  ∑ p ∈ starCorners M i, divergenceTerm M field p.1 p.2

/-- Modelled from the spec: `vcg::tri::UpdateNormal::PerFaceNormalized`
(vcglib, outside the sample file) stores on each face its unit normal
for the counter-clockwise winding (spec §3: "after a normal-computation
pass, a per-face unit normal"). -/
def updateFaceNormals {nV nF : ℕ} (M : Mesh nV nF) : Mesh nV nF :=
  { M with
    N := fun f =>
      let c := Vec3.cross
        (Vec3.sub (M.pos (M.face f 1)) (M.pos (M.face f 0)))
        (Vec3.sub (M.pos (M.face f 2)) (M.pos (M.face f 0)))
      Vec3.div c (norm3 c) }

/-- Modelled from the spec: the external sparse solver collaborator
(Eigen's `SimplicialLDLT`, spec §1/§6: "a sparse linear system solver
capable of symmetric positive(-semi)definite factorization").  `solve`
is the vector the solver hands back (Eigen always returns one, garbage
when factorization failed); `ok` models `solver.info() == Success`. -/
structure LinearSolver (n : ℕ) where
  solve : (Fin n → Fin n → ℝ) → (Fin n → ℝ) → (Fin n → ℝ)
  ok : (Fin n → Fin n → ℝ) → Bool

/-- Matrix-vector product, for stating that candidate vectors solve the
assembled linear systems. -/
def mulVec {n : ℕ} (A : Fin n → Fin n → ℝ) (v : Fin n → ℝ) (i : Fin n) : ℝ :=
  ∑ j, A i j * v j

/-- The mesh as the pipeline stages after `buildMassMatrix` see it:
topology/normals refreshed, face areas cached in `Q`. -/
def pipelineMesh {nV nF : ℕ} (M : Mesh nV nF) : Mesh nV nF :=
  (buildMassMatrix (updateFaceNormals M)).1

/-- The mass diagonal as built inside `computeHeatMethodGeodesic`. -/
def massVec {nV nF : ℕ} (M : Mesh nV nF) (i : Fin nV) : ℝ :=
  (buildMassMatrix (updateFaceNormals M)).2 i

/-- `timestep = m * avg_edge_len * avg_edge_len` from the orchestrator. -/
def heatTimestep {nV nF : ℕ} (M : Mesh nV nF) (m : ℝ) : ℝ :=
  m * computeAverageEdgeLength (pipelineMesh M) *
    computeAverageEdgeLength (pipelineMesh M)

/-- The heat-diffusion system `mass - timestep * cotanOperator`
(`system1` in the orchestrator; the mass matrix is diagonal). -/
def heatSystem {nV nF : ℕ} (M : Mesh nV nF) (m : ℝ)
    (i j : Fin nV) : ℝ :=
  (if j = i then massVec M i else 0) -
    heatTimestep M m * cotanOperator (pipelineMesh M) i j

/-- The Poisson system (`system2` in the orchestrator): the cotangent
operator itself. -/
def poissonSystem {nV nF : ℕ} (M : Mesh nV nF) (i j : Fin nV) : ℝ :=
  cotanOperator (pipelineMesh M) i j

/-- `heatflow = cholesky1.solve(init_cond)` in the orchestrator. -/
def pipelineHeat {nV nF : ℕ} (S : LinearSolver nV) (M : Mesh nV nF)
    (init : Fin nV → ℝ) (m : ℝ) : Fin nV → ℝ :=
  S.solve (heatSystem M m) init

/-- The divergence of the negated, normalized heat gradient, as the
orchestrator computes it before the second solve. -/
def pipelineDivergence {nV nF : ℕ} (S : LinearSolver nV) (M : Mesh nV nF)
    (init : Fin nV → ℝ) (m : ℝ) : Fin nV → ℝ :=
  computeVertexDivergence (pipelineMesh M)
    (normalizeVectorField
      (fun f => Vec3.neg (computeVertexGradient (pipelineMesh M)
        (pipelineHeat S M init m) f)))

/-- `computeHeatMethodGeodesic(mesh, init_cond, m)`: refresh topology
and normals, build mass and cotangent operators, assemble and solve the
heat system, take gradient / negate+normalize / divergence, solve the
Poisson system and return its solution vector.  Neither `solver.info()`
is ever consulted in this (non-verbose) path. -/
def computeHeatMethodGeodesic {nV nF : ℕ} (S : LinearSolver nV)
    (M : Mesh nV nF) (init : Fin nV → ℝ) (m : ℝ) : Fin nV → ℝ :=
  S.solve (poissonSystem M) (pipelineDivergence S M init m)

/-! ### Helper lemmas about the cotangent operator -/

lemma cotanOff_diag {nV nF : ℕ} (M : Mesh nV nF) (i : Fin nV) :
    cotanOff M i i = 0 := if_pos rfl

lemma oppCorners_symm {nV nF : ℕ} (M : Mesh nV nF) (i j : Fin nV) :
    oppCorners M i j = oppCorners M j i := by
  unfold oppCorners
  apply Finset.filter_congr
  intro p _
  unfold oppositeCorner
  constructor <;> (intro h; tauto)

lemma cotanOff_symm {nV nF : ℕ} (M : Mesh nV nF) (i j : Fin nV) :
    cotanOff M i j = cotanOff M j i := by
  unfold cotanOff
  rcases eq_or_ne i j with h | h
  · subst h; rfl
  · rw [if_neg h, if_neg h.symm, oppCorners_symm]

lemma erase_sum_cotanOperator {nV nF : ℕ} (M : Mesh nV nF) (i : Fin nV) :
    ∑ k ∈ Finset.univ.erase i, cotanOperator M i k = ∑ k, cotanOff M i k := by
  rw [← Finset.add_sum_erase Finset.univ (fun k => cotanOff M i k)
    (Finset.mem_univ i), cotanOff_diag, zero_add]
  exact Finset.sum_congr rfl
    (fun k hk => if_neg (fun h => (Finset.mem_erase.1 hk).1 h.symm))

lemma cotan_row_sum_aux {nV nF : ℕ} (M : Mesh nV nF) (i : Fin nV) :
    ∑ k, cotanOperator M i k = 0 := by
  rw [← Finset.add_sum_erase Finset.univ (fun k => cotanOperator M i k)
    (Finset.mem_univ i), erase_sum_cotanOperator]
  have hd : cotanOperator M i i = -(∑ k, cotanOff M i k) := if_pos rfl
  rw [hd]; ring

/-- A concrete regular tetrahedron: 4 vertices, 4 equilateral faces
(every pair of vertices at distance `2√2`), closed and manifold. -/
def tetra : Mesh 4 4 where
  pos := ![⟨1, 1, 1⟩, ⟨1, -1, -1⟩, ⟨-1, 1, -1⟩, ⟨-1, -1, 1⟩]
  face := ![![1, 2, 3], ![0, 3, 2], ![0, 1, 3], ![0, 2, 1]]
  N := fun _ => Vec3.zero
  Q := fun _ => 0

/-- C3: the diagonal entry of the matrix built by `buildCotanMatrix` is
the negated sum of the off-diagonal entries of its row
(`coeffRef(i,i) = -row(i).sum()` over the previously written entries),
so every row of the Laplacian sums to zero — exactly, in the real-number
model of the floating-point arithmetic. -/
theorem cotan_diag_neg_offdiag_row_sum_zero {nV nF : ℕ} (M : Mesh nV nF)
    (i : Fin nV) :
    cotanOperator M i i = -(∑ k ∈ Finset.univ.erase i, cotanOperator M i k) ∧
    ∑ k, cotanOperator M i k = 0 := by
  constructor
  · have hd : cotanOperator M i i = -(∑ k, cotanOff M i k) := if_pos rfl
    rw [hd, erase_sum_cotanOperator]
  · exact cotan_row_sum_aux M i

/-- C4: the Laplacian built by `buildCotanMatrix` is symmetric, and for
an interior mesh edge `{i, j}` whose opposite corners in the two
incident triangles are `a` and `b`, the off-diagonal entry equals the
average of the two opposite-angle cotangents. -/
theorem cotan_symm_offdiag_avg {nV nF : ℕ} (M : Mesh nV nF) (i j : Fin nV) :
    cotanOperator M i j = cotanOperator M j i ∧
    ∀ a b : Fin nF × Fin 3, a ≠ b → i ≠ j → oppCorners M i j = {a, b} →
      cotanOperator M i j =
        (cotAtCorner M a.1 a.2 + cotAtCorner M b.1 b.2) / 2 := by
  constructor
  · rcases eq_or_ne i j with h | h
    · subst h; rfl
    · unfold cotanOperator
      rw [if_neg h, if_neg h.symm]
      exact cotanOff_symm M i j
  · intro a b hab hij hset
    unfold cotanOperator cotanOff
    rw [if_neg hij, if_neg hij, hset, Finset.sum_pair hab]

/-- Witness for C4 on the tetrahedron: the edge `{0, 1}` lies in faces 2
and 3, with opposite corners `(2, 2)` and `(3, 1)`; the entry is the
average of those two corner cotangents, and the matrix is symmetric
there. -/
theorem cotan_symm_offdiag_avg_witness :
    cotanOperator tetra 0 1 = cotanOperator tetra 1 0 ∧
    cotanOperator tetra 0 1 =
      (cotAtCorner tetra 2 2 + cotAtCorner tetra 3 1) / 2 :=
  ⟨(cotan_symm_offdiag_avg tetra 0 1).1,
   (cotan_symm_offdiag_avg tetra 0 1).2 (2, 2) (3, 1)
     (by decide) (by decide) (by decide)⟩

/-! ### Square-root evaluation helpers and vector facts -/

lemma sqrt_of_sq {a b : ℝ} (hb : 0 ≤ b) (h : b ^ 2 = a) : Real.sqrt a = b := by
  rw [← h]; exact Real.sqrt_sq hb

lemma norm3_zero : norm3 Vec3.zero = 0 := by
  simp [norm3, Vec3.zero]

lemma norm3_unit (v : Vec3) (h : norm3 v ≠ 0) :
    norm3 (Vec3.div v (norm3 v)) = 1 := by
  have hsum : (0:ℝ) ≤ v.x ^ 2 + v.y ^ 2 + v.z ^ 2 := by positivity
  have hsq : Real.sqrt (v.x ^ 2 + v.y ^ 2 + v.z ^ 2) ^ 2
      = v.x ^ 2 + v.y ^ 2 + v.z ^ 2 := Real.sq_sqrt hsum
  have hne : Real.sqrt (v.x ^ 2 + v.y ^ 2 + v.z ^ 2) ≠ 0 := h
  have hS : v.x ^ 2 + v.y ^ 2 + v.z ^ 2 ≠ 0 :=
    fun h0 => hne (by rw [h0, Real.sqrt_zero])
  have hrw : (v.x / norm3 v) ^ 2 + (v.y / norm3 v) ^ 2 + (v.z / norm3 v) ^ 2
      = 1 := by
    have hsplit : (v.x / norm3 v) ^ 2 + (v.y / norm3 v) ^ 2 +
        (v.z / norm3 v) ^ 2 = (v.x ^ 2 + v.y ^ 2 + v.z ^ 2) / (norm3 v) ^ 2 := by
      ring
    rw [hsplit]
    unfold norm3
    rw [hsq, div_self hS]
  show Real.sqrt ((v.x / norm3 v) ^ 2 + (v.y / norm3 v) ^ 2 +
    (v.z / norm3 v) ^ 2) = 1
  rw [hrw, Real.sqrt_one]

lemma cross_smul_right (t : ℝ) (v : Vec3) :
    Vec3.cross v (Vec3.smul t v) = Vec3.zero := by
  simp only [Vec3.cross, Vec3.smul, Vec3.zero, Vec3.mk.injEq]
  refine ⟨by ring, by ring, by ring⟩

lemma cross_smul_left (t : ℝ) (v : Vec3) :
    Vec3.cross (Vec3.smul t v) v = Vec3.zero := by
  simp only [Vec3.cross, Vec3.smul, Vec3.zero, Vec3.mk.injEq]
  refine ⟨by ring, by ring, by ring⟩

/-- A single 3-4-5 right triangle in the plane `z = 0` (a scalene face:
the three edge lengths 3, 4, 5 are pairwise distinct). -/
def tri1 : Mesh 3 1 where
  pos := ![⟨0, 0, 0⟩, ⟨3, 0, 0⟩, ⟨0, 4, 0⟩]
  face := ![![0, 1, 2]]
  N := fun _ => Vec3.zero
  Q := fun _ => 0

/-- C7: `normalizeVectorField` maps each row to that row divided by its
own Euclidean norm (a total function — no error is signalled, zero-norm
rows included), and every row of non-zero norm comes out with unit
length. -/
theorem normalize_rows_unit {n : ℕ} (field : Fin n → Vec3) (i : Fin n) :
    normalizeVectorField field i = Vec3.div (field i) (norm3 (field i)) ∧
    (norm3 (field i) ≠ 0 → norm3 (normalizeVectorField field i) = 1) :=
  ⟨rfl, fun h => norm3_unit (field i) h⟩

/-- Witness for C7 on the one-row field `(3, 4, 0)`: its norm is `5 ≠ 0`
and the normalized row has unit length. -/
theorem normalize_rows_unit_witness :
    norm3 ((fun _ : Fin 1 => (⟨3, 4, 0⟩ : Vec3)) 0) ≠ 0 ∧
    norm3 (normalizeVectorField (fun _ : Fin 1 => (⟨3, 4, 0⟩ : Vec3)) 0) = 1 := by
  have h5 : norm3 ((fun _ : Fin 1 => (⟨3, 4, 0⟩ : Vec3)) 0) = 5 := by
    show Real.sqrt ((3:ℝ) ^ 2 + (4:ℝ) ^ 2 + (0:ℝ) ^ 2) = 5
    exact sqrt_of_sq (by norm_num) (by norm_num)
  refine ⟨by rw [h5]; norm_num, ?_⟩
  exact (normalize_rows_unit (fun _ : Fin 1 => (⟨3, 4, 0⟩ : Vec3)) 0).2
    (by rw [h5]; norm_num)

/-- C10: `cotan` is the unguarded quotient of the dot product by the
cross-product norm; on any collinear pair (one vector a scalar multiple
of the other, zero vectors included) the denominator is exactly zero
and the quotient is still taken, with no error path; the entries of
the matrix built by `buildCotanMatrix` are sums of such unguarded
`cotan` values of face edge vectors, so a degenerate value enters the
Laplacian unchecked; and the divergence output at each vertex is
likewise a sum of per-corner contributions each built from two
unguarded `cotan` applications to face edge vectors (the three
corner-index cases spelled out), so a degenerate value also enters
`computeVertexDivergence` unchecked. -/
theorem cotan_unguarded_collinear :
    (∀ v0 v1 : Vec3, cotan v0 v1 = Vec3.dot v0 v1 / norm3 (Vec3.cross v0 v1)) ∧
    (∀ v0 v1 : Vec3, (∃ t : ℝ, v1 = Vec3.smul t v0 ∨ v0 = Vec3.smul t v1) →
      norm3 (Vec3.cross v0 v1) = 0 ∧ cotan v0 v1 = Vec3.dot v0 v1 / 0) ∧
    (∀ (nV nF : ℕ) (M : Mesh nV nF) (i j : Fin nV), i ≠ j →
      cotanOperator M i j = (∑ p ∈ oppCorners M i j,
        cotan (Vec3.sub (M.pos (M.face p.1 (p.2 + 1))) (M.pos (M.face p.1 p.2)))
          (Vec3.sub (M.pos (M.face p.1 (p.2 + 2)))
            (M.pos (M.face p.1 p.2)))) / 2) ∧
    (∀ (nV nF : ℕ) (M : Mesh nV nF) (field : Fin nF → Vec3) (i : Fin nV),
      computeVertexDivergence M field i =
        ∑ p ∈ starCorners M i, divergenceTerm M field p.1 p.2) ∧
    (∀ (nV nF : ℕ) (M : Mesh nV nF) (field : Fin nF → Vec3) (f : Fin nF),
      divergenceTerm M field f 0 =
        (cotan (Vec3.sub (M.pos (M.face f 2)) (M.pos (M.face f 0)))
            (Vec3.sub (M.pos (M.face f 1)) (M.pos (M.face f 2))) *
          Vec3.dot (Vec3.div (Vec3.sub (M.pos (M.face f 1)) (M.pos (M.face f 0)))
            (norm3 (Vec3.sub (M.pos (M.face f 1)) (M.pos (M.face f 0)))))
            (field f) +
         cotan (Vec3.sub (M.pos (M.face f 1)) (M.pos (M.face f 0)))
            (Vec3.sub (M.pos (M.face f 1)) (M.pos (M.face f 2))) *
          Vec3.dot (Vec3.div (Vec3.sub (M.pos (M.face f 2)) (M.pos (M.face f 0)))
            (-norm3 (Vec3.sub (M.pos (M.face f 2)) (M.pos (M.face f 0)))))
            (field f)) / 2 ∧
      divergenceTerm M field f 1 =
        (cotan (Vec3.sub (M.pos (M.face f 0)) (M.pos (M.face f 1)))
            (Vec3.sub (M.pos (M.face f 0)) (M.pos (M.face f 2))) *
          Vec3.dot (Vec3.div (Vec3.sub (M.pos (M.face f 2)) (M.pos (M.face f 1)))
            (norm3 (Vec3.sub (M.pos (M.face f 2)) (M.pos (M.face f 1)))))
            (field f) +
         cotan (Vec3.sub (M.pos (M.face f 2)) (M.pos (M.face f 1)))
            (Vec3.sub (M.pos (M.face f 0)) (M.pos (M.face f 2))) *
          Vec3.dot (Vec3.div (Vec3.sub (M.pos (M.face f 0)) (M.pos (M.face f 1)))
            (-norm3 (Vec3.sub (M.pos (M.face f 0)) (M.pos (M.face f 1)))))
            (field f)) / 2 ∧
      divergenceTerm M field f 2 =
        (cotan (Vec3.sub (M.pos (M.face f 1)) (M.pos (M.face f 2)))
            (Vec3.sub (M.pos (M.face f 0)) (M.pos (M.face f 1))) *
          Vec3.dot (Vec3.div (Vec3.sub (M.pos (M.face f 0)) (M.pos (M.face f 2)))
            (norm3 (Vec3.sub (M.pos (M.face f 0)) (M.pos (M.face f 2)))))
            (field f) +
         cotan (Vec3.sub (M.pos (M.face f 0)) (M.pos (M.face f 2)))
            (Vec3.sub (M.pos (M.face f 0)) (M.pos (M.face f 1))) *
          Vec3.dot (Vec3.div (Vec3.sub (M.pos (M.face f 1)) (M.pos (M.face f 2)))
            (-norm3 (Vec3.sub (M.pos (M.face f 1)) (M.pos (M.face f 2)))))
            (field f)) / 2) := by
  refine ⟨fun v0 v1 => rfl, ?_, ?_, fun nV nF M field i => rfl,
    fun nV nF M field f => ⟨rfl, rfl, rfl⟩⟩
  · rintro v0 v1 ⟨t, ht | ht⟩ <;>
      (subst ht;
       first
       | (have hz : norm3 (Vec3.cross v0 (Vec3.smul t v0)) = 0 := by
            rw [cross_smul_right, norm3_zero]
          exact ⟨hz, by unfold cotan; rw [hz]⟩)
       | (have hz : norm3 (Vec3.cross (Vec3.smul t v1) v1) = 0 := by
            rw [cross_smul_left, norm3_zero]
          exact ⟨hz, by unfold cotan; rw [hz]⟩))
  · intro nV nF M i j hij
    unfold cotanOperator
    rw [if_neg hij]
    unfold cotanOff
    rw [if_neg hij]
    rfl

/-- Witness for C10 at the collinear pair `(1,0,0)`, `(2,0,0)`: the
cross-product norm is exactly zero and `cotan` still divides by it. -/
theorem cotan_unguarded_collinear_witness :
    norm3 (Vec3.cross ⟨1, 0, 0⟩ ⟨2, 0, 0⟩) = 0 ∧
    cotan ⟨1, 0, 0⟩ ⟨2, 0, 0⟩ = Vec3.dot ⟨1, 0, 0⟩ ⟨2, 0, 0⟩ / 0 :=
  cotan_unguarded_collinear.2.1 ⟨1, 0, 0⟩ ⟨2, 0, 0⟩
    ⟨2, Or.inl (by simp only [Vec3.smul, Vec3.mk.injEq]; norm_num)⟩

/-- The average edge length only looks at positions and incidence, so
the mesh mutations earlier in the pipeline (normals, cached areas) do
not affect it. -/
lemma avg_edge_pipelineMesh {nV nF : ℕ} (M : Mesh nV nF) :
    computeAverageEdgeLength (pipelineMesh M) = computeAverageEdgeLength M := rfl

/-- C8: `computeAverageEdgeLength` returns the summed half-perimeters
divided by `3/2 · FN` (equivalently, the sum of the three edge lengths
of every face divided by `3 · FN`), and the orchestrator turns it into
the diffusion timestep `m · avg²`, which at the default `m = 1` is just
`avg²`. -/
theorem avg_edge_length_timestep {nV nF : ℕ} (M : Mesh nV nF) (h : 0 < nF) :
    computeAverageEdgeLength M =
      (∑ f, (norm3 (Vec3.sub (M.pos (M.face f 1)) (M.pos (M.face f 0))) +
             norm3 (Vec3.sub (M.pos (M.face f 2)) (M.pos (M.face f 0))) +
             norm3 (Vec3.sub (M.pos (M.face f 2)) (M.pos (M.face f 1)))) / 2) /
        (3 / 2 * (nF : ℝ)) ∧
    computeAverageEdgeLength M =
      (∑ f, (norm3 (Vec3.sub (M.pos (M.face f 1)) (M.pos (M.face f 0))) +
             norm3 (Vec3.sub (M.pos (M.face f 2)) (M.pos (M.face f 0))) +
             norm3 (Vec3.sub (M.pos (M.face f 2)) (M.pos (M.face f 1))))) /
        (3 * (nF : ℝ)) ∧
    (∀ m : ℝ, heatTimestep M m = m * computeAverageEdgeLength M ^ 2) ∧
    heatTimestep M 1 = computeAverageEdgeLength M ^ 2 := by
  have hn : (nF : ℝ) ≠ 0 := Nat.cast_ne_zero.2 h.ne'
  have htime : ∀ m : ℝ,
      heatTimestep M m = m * computeAverageEdgeLength M ^ 2 := by
    intro m
    unfold heatTimestep
    rw [avg_edge_pipelineMesh]
    ring
  refine ⟨rfl, ?_, htime, by rw [htime 1]; ring⟩
  unfold computeAverageEdgeLength
  rw [← Finset.sum_div]
  field_simp

/-- Witness for C8 on the single 3-4-5 triangle: it has one face, the
average edge length evaluates to `(3+4+5)/2 / (3/2) = 4`, and the
default-`m` timestep is its square. -/
theorem avg_edge_length_timestep_witness :
    0 < 1 ∧ computeAverageEdgeLength tri1 = 4 ∧
    heatTimestep tri1 1 = computeAverageEdgeLength tri1 ^ 2 := by
  have h3 : norm3 (Vec3.sub (tri1.pos (tri1.face 0 1)) (tri1.pos (tri1.face 0 0)))
      = 3 := by
    show Real.sqrt (((3:ℝ) - 0) ^ 2 + ((0:ℝ) - 0) ^ 2 + ((0:ℝ) - 0) ^ 2) = 3
    exact sqrt_of_sq (by norm_num) (by norm_num)
  have h4 : norm3 (Vec3.sub (tri1.pos (tri1.face 0 2)) (tri1.pos (tri1.face 0 0)))
      = 4 := by
    show Real.sqrt (((0:ℝ) - 0) ^ 2 + ((4:ℝ) - 0) ^ 2 + ((0:ℝ) - 0) ^ 2) = 4
    exact sqrt_of_sq (by norm_num) (by norm_num)
  have h5 : norm3 (Vec3.sub (tri1.pos (tri1.face 0 2)) (tri1.pos (tri1.face 0 1)))
      = 5 := by
    show Real.sqrt (((0:ℝ) - 3) ^ 2 + ((4:ℝ) - 0) ^ 2 + ((0:ℝ) - 0) ^ 2) = 5
    exact sqrt_of_sq (by norm_num) (by norm_num)
  have havg : computeAverageEdgeLength tri1 = 4 := by
    have h1 := (avg_edge_length_timestep tri1 (by decide)).1
    rw [h1, Fin.sum_univ_one, h3, h4, h5]
    norm_num
  exact ⟨by decide, havg, (avg_edge_length_timestep tri1 (by decide)).2.2.2⟩

/-- C9: `buildMassMatrix` leaves positions, incidence and normals of the
mesh untouched and only rewrites the per-face quality field with the
Heron areas (plus filling the separate mass matrix); and
`computeVertexGradient` divides by twice the face quality field, so on
the mesh produced by `buildMassMatrix` the divisor is twice the Heron
area of the face. -/
theorem mass_writes_quality_gradient_reads {nV nF : ℕ} (M : Mesh nV nF) :
    (buildMassMatrix M).1.pos = M.pos ∧
    (buildMassMatrix M).1.face = M.face ∧
    (buildMassMatrix M).1.N = M.N ∧
    ((buildMassMatrix M).1.Q = fun f => faceArea M f) ∧
    ((buildMassMatrix M).2 = fun i => massDiag M i) ∧
    ∀ (heat : Fin nV → ℝ) (f : Fin nF),
      computeVertexGradient ((buildMassMatrix M).1) heat f =
        Vec3.div (gradientNumerator M heat f) (2 * faceArea M f) :=
  ⟨rfl, rfl, rfl, rfl, rfl, fun _ _ => rfl⟩

/-! ### Gradient of a constant scalar field -/

lemma gradientNumerator_const {nV nF : ℕ} (M : Mesh nV nF) (c : ℝ) (f : Fin nF)
    (h01 : norm3 (Vec3.sub (M.pos (M.face f 2)) (M.pos (M.face f 1))) =
           norm3 (Vec3.sub (M.pos (M.face f 0)) (M.pos (M.face f 2))))
    (h12 : norm3 (Vec3.sub (M.pos (M.face f 0)) (M.pos (M.face f 2))) =
           norm3 (Vec3.sub (M.pos (M.face f 1)) (M.pos (M.face f 0)))) :
    gradientNumerator M (fun _ => c) f = Vec3.zero := by
  simp only [gradientNumerator]
  rw [h01, h12]
  simp only [Vec3.div, Vec3.sub, Vec3.add, Vec3.smul, Vec3.cross, Vec3.zero,
    Vec3.mk.injEq]
  refine ⟨by ring, by ring, by ring⟩

lemma gradient_const_zero {nV nF : ℕ} (M : Mesh nV nF) (c : ℝ) (f : Fin nF)
    (h01 : norm3 (Vec3.sub (M.pos (M.face f 2)) (M.pos (M.face f 1))) =
           norm3 (Vec3.sub (M.pos (M.face f 0)) (M.pos (M.face f 2))))
    (h12 : norm3 (Vec3.sub (M.pos (M.face f 0)) (M.pos (M.face f 2))) =
           norm3 (Vec3.sub (M.pos (M.face f 1)) (M.pos (M.face f 0)))) :
    computeVertexGradient M (fun _ => c) f = Vec3.zero := by
  unfold computeVertexGradient
  rw [gradientNumerator_const M c f h01 h12]
  simp [Vec3.div, Vec3.zero]

/-- Evaluation of `computeVertexGradient` once the face data is known. -/
lemma computeVertexGradient_eval {nV nF : ℕ} (M : Mesh nV nF)
    (heat : Fin nV → ℝ) (f : Fin nF) (p0 p1 p2 n : Vec3) (q a0 a1 a2 : ℝ)
    (h0 : M.pos (M.face f 0) = p0) (h1 : M.pos (M.face f 1) = p1)
    (h2 : M.pos (M.face f 2) = p2)
    (hn : Vec3.div (M.N f) (norm3 (M.N f)) = n)
    (hq : M.Q f = q)
    (ha0 : heat (M.face f 0) = a0) (ha1 : heat (M.face f 1) = a1)
    (ha2 : heat (M.face f 2) = a2) :
    computeVertexGradient M heat f =
      Vec3.div (Vec3.add (Vec3.add
        (Vec3.smul a0 (Vec3.cross n
          (Vec3.div (Vec3.sub p2 p1) (norm3 (Vec3.sub p2 p1)))))
        (Vec3.smul a1 (Vec3.cross n
          (Vec3.div (Vec3.sub p0 p2) (norm3 (Vec3.sub p0 p2))))))
        (Vec3.smul a2 (Vec3.cross n
          (Vec3.div (Vec3.sub p1 p0) (norm3 (Vec3.sub p1 p0))))))
        (2 * q) := by
  simp only [computeVertexGradient, gradientNumerator, h0, h1, h2, hn, hq,
    ha0, ha1, ha2]

lemma tri1_len1 :
    norm3 (Vec3.sub (tri1.pos (tri1.face 0 1)) (tri1.pos (tri1.face 0 0))) = 3 := by
  show Real.sqrt (((3:ℝ) - 0) ^ 2 + ((0:ℝ) - 0) ^ 2 + ((0:ℝ) - 0) ^ 2) = 3
  exact sqrt_of_sq (by norm_num) (by norm_num)

lemma tri1_len2 :
    norm3 (Vec3.sub (tri1.pos (tri1.face 0 2)) (tri1.pos (tri1.face 0 0))) = 4 := by
  show Real.sqrt (((0:ℝ) - 0) ^ 2 + ((4:ℝ) - 0) ^ 2 + ((0:ℝ) - 0) ^ 2) = 4
  exact sqrt_of_sq (by norm_num) (by norm_num)

lemma tri1_len3 :
    norm3 (Vec3.sub (tri1.pos (tri1.face 0 2)) (tri1.pos (tri1.face 0 1))) = 5 := by
  show Real.sqrt (((0:ℝ) - 3) ^ 2 + ((4:ℝ) - 0) ^ 2 + ((0:ℝ) - 0) ^ 2) = 5
  exact sqrt_of_sq (by norm_num) (by norm_num)

lemma tri1_area : faceArea tri1 0 = 6 := by
  simp only [faceArea]
  rw [tri1_len1, tri1_len2, tri1_len3]
  rw [show ((3:ℝ) + 4 + 5) / 2 * (((3:ℝ) + 4 + 5) / 2 - 3) *
      (((3:ℝ) + 4 + 5) / 2 - 4) * (((3:ℝ) + 4 + 5) / 2 - 5) = 36 by norm_num]
  exact sqrt_of_sq (by norm_num) (by norm_num)

/-- C1, counterexample: on the 3-4-5 right triangle (as prepared by the
pipeline: unit normal computed, Heron area 6 cached in `Q`), the
gradient of the globally constant scalar field `1` is *not* the zero
vector — the source normalizes each edge vector by its own length
before rotating, and the three unit edges of a scalene face do not sum
to zero (here the result is `(1/60, 1/30, 0)`). -/
theorem gradient_const_counterexample_345 :
    computeVertexGradient (pipelineMesh tri1) (fun _ => (1:ℝ)) 0 ≠ Vec3.zero := by
  have hc : Vec3.cross (Vec3.sub ⟨3, 0, 0⟩ ⟨0, 0, 0⟩)
      (Vec3.sub ⟨0, 4, 0⟩ ⟨0, 0, 0⟩) = (⟨0, 0, 12⟩ : Vec3) := by
    simp only [Vec3.cross, Vec3.sub, Vec3.mk.injEq]
    norm_num
  have hN : (pipelineMesh tri1).N 0 = Vec3.div ⟨0, 0, 12⟩ (norm3 ⟨0, 0, 12⟩) := by
    show Vec3.div (Vec3.cross (Vec3.sub ⟨3, 0, 0⟩ ⟨0, 0, 0⟩)
        (Vec3.sub ⟨0, 4, 0⟩ ⟨0, 0, 0⟩))
      (norm3 (Vec3.cross (Vec3.sub ⟨3, 0, 0⟩ ⟨0, 0, 0⟩)
        (Vec3.sub ⟨0, 4, 0⟩ ⟨0, 0, 0⟩))) = _
    rw [hc]
  have h12 : norm3 (⟨0, 0, 12⟩ : Vec3) = 12 := by
    show Real.sqrt ((0:ℝ) ^ 2 + (0:ℝ) ^ 2 + (12:ℝ) ^ 2) = 12
    exact sqrt_of_sq (by norm_num) (by norm_num)
  have hNval : (pipelineMesh tri1).N 0 = (⟨0, 0, 1⟩ : Vec3) := by
    rw [hN, h12]
    simp only [Vec3.div, Vec3.mk.injEq]
    norm_num
  have hone : norm3 (⟨0, 0, 1⟩ : Vec3) = 1 := by
    show Real.sqrt ((0:ℝ) ^ 2 + (0:ℝ) ^ 2 + (1:ℝ) ^ 2) = 1
    exact sqrt_of_sq (by norm_num) (by norm_num)
  have hn : Vec3.div ((pipelineMesh tri1).N 0) (norm3 ((pipelineMesh tri1).N 0))
      = (⟨0, 0, 1⟩ : Vec3) := by
    rw [hNval, hone]
    simp only [Vec3.div, Vec3.mk.injEq]
    norm_num
  have hq : (pipelineMesh tri1).Q 0 = 6 := tri1_area
  have heval := computeVertexGradient_eval (pipelineMesh tri1) (fun _ => (1:ℝ)) 0
    ⟨0, 0, 0⟩ ⟨3, 0, 0⟩ ⟨0, 4, 0⟩ ⟨0, 0, 1⟩ 6 1 1 1 rfl rfl rfl hn hq rfl rfl rfl
  rw [heval]
  have hl0 : norm3 (Vec3.sub (⟨0, 4, 0⟩ : Vec3) ⟨3, 0, 0⟩) = 5 := by
    show Real.sqrt (((0:ℝ) - 3) ^ 2 + ((4:ℝ) - 0) ^ 2 + ((0:ℝ) - 0) ^ 2) = 5
    exact sqrt_of_sq (by norm_num) (by norm_num)
  have hl1 : norm3 (Vec3.sub (⟨0, 0, 0⟩ : Vec3) ⟨0, 4, 0⟩) = 4 := by
    show Real.sqrt (((0:ℝ) - 0) ^ 2 + ((0:ℝ) - 4) ^ 2 + ((0:ℝ) - 0) ^ 2) = 4
    exact sqrt_of_sq (by norm_num) (by norm_num)
  have hl2 : norm3 (Vec3.sub (⟨3, 0, 0⟩ : Vec3) ⟨0, 0, 0⟩) = 3 := by
    show Real.sqrt (((3:ℝ) - 0) ^ 2 + ((0:ℝ) - 0) ^ 2 + ((0:ℝ) - 0) ^ 2) = 3
    exact sqrt_of_sq (by norm_num) (by norm_num)
  rw [hl0, hl1, hl2]
  intro hcontra
  have hx := congrArg Vec3.x hcontra
  simp only [Vec3.div, Vec3.add, Vec3.smul, Vec3.cross, Vec3.sub, Vec3.zero] at hx
  norm_num at hx

/-- C1, amended: `computeVertexGradient` of a globally constant scalar
field is the zero vector on every face whose three edge lengths are
equal (then the per-edge normalization is uniform and the rotated unit
edges cancel), whatever the cached area and normal fields hold. -/
theorem gradient_const_zero_equal_edges {nV nF : ℕ} (M : Mesh nV nF) (c : ℝ)
    (f : Fin nF)
    (h01 : norm3 (Vec3.sub (M.pos (M.face f 2)) (M.pos (M.face f 1))) =
           norm3 (Vec3.sub (M.pos (M.face f 0)) (M.pos (M.face f 2))))
    (h12 : norm3 (Vec3.sub (M.pos (M.face f 0)) (M.pos (M.face f 2))) =
           norm3 (Vec3.sub (M.pos (M.face f 1)) (M.pos (M.face f 0)))) :
    computeVertexGradient M (fun _ => c) f = Vec3.zero :=
  gradient_const_zero M c f h01 h12

/-- An equilateral triangle (three vertices of the regular tetrahedron,
all edges of length `2√2`). -/
def triEq : Mesh 3 1 where
  pos := ![⟨1, 1, 1⟩, ⟨1, -1, -1⟩, ⟨-1, 1, -1⟩]
  face := ![![0, 1, 2]]
  N := fun _ => Vec3.zero
  Q := fun _ => 0

/-- Witness for the amended C1 on an equilateral face: the constant
field `5` has zero gradient there. -/
theorem gradient_const_zero_equal_edges_witness :
    computeVertexGradient triEq (fun _ => (5:ℝ)) 0 = Vec3.zero := by
  have h01 : norm3 (Vec3.sub (triEq.pos (triEq.face 0 2)) (triEq.pos (triEq.face 0 1)))
      = norm3 (Vec3.sub (triEq.pos (triEq.face 0 0)) (triEq.pos (triEq.face 0 2))) := by
    show Real.sqrt (((-1:ℝ) - 1) ^ 2 + ((1:ℝ) - (-1)) ^ 2 + ((-1:ℝ) - (-1)) ^ 2)
      = Real.sqrt (((1:ℝ) - (-1)) ^ 2 + ((1:ℝ) - 1) ^ 2 + ((1:ℝ) - (-1)) ^ 2)
    norm_num
  have h12 : norm3 (Vec3.sub (triEq.pos (triEq.face 0 0)) (triEq.pos (triEq.face 0 2)))
      = norm3 (Vec3.sub (triEq.pos (triEq.face 0 1)) (triEq.pos (triEq.face 0 0))) := by
    show Real.sqrt (((1:ℝ) - (-1)) ^ 2 + ((1:ℝ) - 1) ^ 2 + ((1:ℝ) - (-1)) ^ 2)
      = Real.sqrt (((1:ℝ) - 1) ^ 2 + ((-1:ℝ) - 1) ^ 2 + ((-1:ℝ) - 1) ^ 2)
    norm_num
  exact gradient_const_zero_equal_edges triEq 5 0 h01 h12

/-! ### Mass matrix: positivity and total area -/

lemma faceArea_nonneg {nV nF : ℕ} (M : Mesh nV nF) (f : Fin nF) :
    0 ≤ faceArea M f := Real.sqrt_nonneg _

lemma norm3_sub_self (p : Vec3) : norm3 (Vec3.sub p p) = 0 := by
  simp [norm3, Vec3.sub]

lemma norm3_sub_comm (a b : Vec3) : norm3 (Vec3.sub a b) = norm3 (Vec3.sub b a) := by
  unfold norm3 Vec3.sub
  congr 1
  ring

/-- A face with two coinciding corner positions has Heron area zero:
one edge length vanishes and the two other edge lengths coincide, so
one of the factors under the square root is zero. -/
lemma faceArea_degenerate {nV nF : ℕ} (M : Mesh nV nF) (f : Fin nF)
    (h : M.pos (M.face f 0) = M.pos (M.face f 1) ∨
         M.pos (M.face f 0) = M.pos (M.face f 2) ∨
         M.pos (M.face f 1) = M.pos (M.face f 2)) :
    faceArea M f = 0 := by
  simp only [faceArea]
  rcases h with h | h | h
  · rw [h, norm3_sub_self]
    convert Real.sqrt_zero using 2
    ring
  · rw [h, norm3_sub_self, norm3_sub_comm (M.pos (M.face f 1)) (M.pos (M.face f 2))]
    convert Real.sqrt_zero using 2
    ring
  · rw [h, norm3_sub_self]
    convert Real.sqrt_zero using 2
    ring

lemma face_injective_of_area_ne_zero {nV nF : ℕ} (M : Mesh nV nF) (f : Fin nF)
    (hA : faceArea M f ≠ 0) : Function.Injective (M.face f) := by
  intro a b hab
  by_contra hne
  apply hA
  apply faceArea_degenerate
  fin_cases a <;> fin_cases b <;>
    first
    | exact absurd rfl hne
    | exact Or.inl (congrArg M.pos hab)
    | exact Or.inl (congrArg M.pos hab.symm)
    | exact Or.inr (Or.inl (congrArg M.pos hab))
    | exact Or.inr (Or.inl (congrArg M.pos hab.symm))
    | exact Or.inr (Or.inr (congrArg M.pos hab))
    | exact Or.inr (Or.inr (congrArg M.pos hab.symm))

lemma star_card_of_area_ne_zero {nV nF : ℕ} (M : Mesh nV nF) (f : Fin nF)
    (hA : faceArea M f ≠ 0) :
    (Finset.univ.filter (fun i => ∃ k : Fin 3, M.face f k = i)).card = 3 := by
  have himg : Finset.univ.filter (fun i => ∃ k : Fin 3, M.face f k = i)
      = Finset.image (M.face f) Finset.univ := by
    ext i
    simp [Finset.mem_image]
  rw [himg, Finset.card_image_of_injective _ (face_injective_of_area_ne_zero M f hA)]
  simp

lemma mass_total_aux {nV nF : ℕ} (M : Mesh nV nF)
    (hA : ∀ f, faceArea M f ≠ 0) :
    ∑ i, ∑ f ∈ starFaces M i, faceArea M f = 3 * ∑ f, faceArea M f := by
  unfold starFaces
  calc ∑ i, ∑ f ∈ Finset.univ.filter (fun f => ∃ k : Fin 3, M.face f k = i),
        faceArea M f
      = ∑ i : Fin nV, ∑ f : Fin nF,
          if ∃ k : Fin 3, M.face f k = i then faceArea M f else 0 := by
        exact Finset.sum_congr rfl fun i _ => Finset.sum_filter _ _
    _ = ∑ f : Fin nF, ∑ i : Fin nV,
          if ∃ k : Fin 3, M.face f k = i then faceArea M f else 0 :=
        Finset.sum_comm
    _ = ∑ f : Fin nF, ∑ i ∈ Finset.univ.filter
          (fun i => ∃ k : Fin 3, M.face f k = i), faceArea M f :=
        Finset.sum_congr rfl fun f _ => (Finset.sum_filter _ _).symm
    _ = ∑ f : Fin nF, (Finset.univ.filter
          (fun i => ∃ k : Fin 3, M.face f k = i)).card • faceArea M f :=
        Finset.sum_congr rfl fun f _ => Finset.sum_const _
    _ = ∑ f : Fin nF, 3 * faceArea M f := by
        refine Finset.sum_congr rfl fun f _ => ?_
        rw [star_card_of_area_ne_zero M f (hA f)]
        simp
    _ = 3 * ∑ f, faceArea M f := (Finset.mul_sum _ _ _).symm

/-- A mesh consisting of one isolated vertex and no faces at all: every
face (vacuously) has non-zero area, yet the mass entry of the vertex is
zero, not strictly positive. -/
def meshIsolated : Mesh 1 0 where
  pos := fun _ => ⟨0, 0, 0⟩
  face := fun f => f.elim0
  N := fun f => f.elim0
  Q := fun f => f.elim0

/-- C5, counterexample: on `meshIsolated` all faces have non-zero area
(vacuously — there are none), but the diagonal mass entry of the lone
vertex is `0`, refuting "every diagonal entry is strictly positive" for
arbitrary meshes whose faces are all non-degenerate. -/
theorem mass_positive_counterexample :
    (∀ f : Fin 0, faceArea meshIsolated f ≠ 0) ∧
    ¬ (0 < massDiag meshIsolated 0) := by
  refine ⟨fun f => f.elim0, ?_⟩
  have h : massDiag meshIsolated 0 = 0 := by
    simp [massDiag, starFaces]
  rw [h]
  exact lt_irrefl 0

/-- C5, amended: for a mesh whose faces all have non-zero area, each
mass diagonal entry is one third of the summed Heron areas of the
incident faces; every entry belonging to a vertex with at least one
incident face is strictly positive; and the trace of the mass matrix
equals the total mesh surface area. -/
theorem mass_diag_positive_total_area {nV nF : ℕ} (M : Mesh nV nF)
    (hA : ∀ f, faceArea M f ≠ 0) :
    (∀ i, massDiag M i = (∑ f ∈ starFaces M i, faceArea M f) / 3) ∧
    (∀ i, (starFaces M i).Nonempty → 0 < massDiag M i) ∧
    ∑ i, massDiag M i = ∑ f, faceArea M f := by
  refine ⟨fun i => rfl, ?_, ?_⟩
  · rintro i ⟨f0, hf0⟩
    unfold massDiag
    have hpos : 0 < ∑ f ∈ starFaces M i, faceArea M f :=
      Finset.sum_pos' (fun f _ => faceArea_nonneg M f)
        ⟨f0, hf0, lt_of_le_of_ne (faceArea_nonneg M f0) (Ne.symm (hA f0))⟩
    linarith
  · unfold massDiag
    rw [← Finset.sum_div, mass_total_aux M hA]
    ring

/-- Witness for the amended C5 on the 3-4-5 triangle: its face has area
`6 ≠ 0`, vertex 0 has an incident face and strictly positive mass, and
the mass trace equals the total area. -/
theorem mass_diag_positive_total_area_witness :
    0 < massDiag tri1 0 ∧ ∑ i, massDiag tri1 i = ∑ f, faceArea tri1 f := by
  have hA : ∀ f : Fin 1, faceArea tri1 f ≠ 0 := by
    intro f
    fin_cases f
    show faceArea tri1 0 ≠ 0
    rw [tri1_area]
    norm_num
  exact ⟨(mass_diag_positive_total_area tri1 hA).2.1 0 ⟨0, by decide⟩,
         (mass_diag_positive_total_area tri1 hA).2.2⟩

/-! ### The orchestrator and the solver collaborator -/

/-- A solver whose status always reports failure (`info() != Success`);
its `solve` just echoes the right-hand side back. -/
def echoFailSolver : LinearSolver 3 := ⟨fun _ b => b, fun _ => false⟩

/-- C2 (code defect): `computeHeatMethodGeodesic` never consults the
solver status.  Even when the Cholesky factorization of the
heat-diffusion system reports failure, the pipeline performs no
error handling whatsoever: it returns the raw vector of the second
solve (whatever the solver handed back), with no error encoded in the
return type and no branch on `info()` anywhere in this path. -/
theorem heat_method_ignores_factorization_failure {nV nF : ℕ}
    (S : LinearSolver nV) (M : Mesh nV nF) (init : Fin nV → ℝ) (m : ℝ)
    (_hfail : S.ok (heatSystem M m) = false) :
    computeHeatMethodGeodesic S M init m =
      S.solve (poissonSystem M) (pipelineDivergence S M init m) := rfl

/-- Witness for C2: with a solver that reports failure on every system,
the pipeline on the 3-4-5 triangle still returns the raw second-solve
vector. -/
theorem heat_method_ignores_factorization_failure_witness :
    echoFailSolver.ok (heatSystem tri1 1) = false ∧
    computeHeatMethodGeodesic echoFailSolver tri1 (fun _ => 0) 1 =
      echoFailSolver.solve (poissonSystem tri1)
        (pipelineDivergence echoFailSolver tri1 (fun _ => 0) 1) :=
  ⟨rfl, heat_method_ignores_factorization_failure echoFailSolver tri1
    (fun _ => 0) 1 rfl⟩

/-- The distance vector the pipeline returns is exactly the solver's
raw representative for the (singular) Poisson system — no re-zeroing,
clamping or sign enforcement happens after the second solve — and the
cotangent operator maps vectors differing by an additive constant to
the same image (zero row sums), so the solution of the Poisson step is
determined only up to an additive constant. -/
theorem geodesic_raw_representative_shift {nV nF : ℕ} :
    (∀ (S : LinearSolver nV) (M : Mesh nV nF) (init : Fin nV → ℝ) (m : ℝ),
      ∃ rhs, computeHeatMethodGeodesic S M init m =
        S.solve (poissonSystem M) rhs) ∧
    (∀ (M : Mesh nV nF) (d : Fin nV → ℝ) (c : ℝ) (i : Fin nV),
      mulVec (cotanOperator (pipelineMesh M)) (fun j => d j + c) i =
        mulVec (cotanOperator (pipelineMesh M)) d i) := by
  constructor
  · intro S M init m
    exact ⟨pipelineDivergence S M init m, rfl⟩
  · intro M d c i
    unfold mulVec
    have hsplit : ∀ j, cotanOperator (pipelineMesh M) i j * (d j + c)
        = cotanOperator (pipelineMesh M) i j * d j
          + cotanOperator (pipelineMesh M) i j * c := fun j => by ring
    rw [Finset.sum_congr rfl (fun j _ => hsplit j), Finset.sum_add_distrib,
      ← Finset.sum_mul, cotan_row_sum_aux]
    ring

